import Mathlib

/-!
Verification of the text-preprocessing-to-embedding-lookup pipeline of the
word-embeddings tutorial notebook.  The notebook's own code (the
`NLP_preprocessing_pipeline` function, the token-sequence materializer and the
embedding-table assembly loop) is embedded directly; the behaviour of the
external collaborators it calls (the Keras `TextVectorization` layer, the NLTK
tokenizer/stopword/lemmatizer resources, BeautifulSoup markup stripping and the
elided classification step) is modelled from the specification, with the
affected definitions marked in their doc comments.  Strings are processed as
`List Char`; external token resources (the stopword list and the lemmatizer)
are passed as explicit parameters.
-/

/-- Whitespace characters as matched by the `\S` class of the notebook's
`re.sub("http\S+", "", ...)` call (space, tab, newline, carriage return,
vertical tab, form feed). -/
def pyIsSpace (c : Char) : Bool :=
  c = ' ' || c = '\t' || c = '\n' || c = '\r' || c = '\x0b' || c = '\x0c'

/-- A character in the lowercase ASCII range a-z. -/
def lowerAlphaChar (c : Char) : Bool :=
  97 ≤ c.toNat && c.toNat ≤ 122

/-- Whether the regular expression `http\S+` matches at the head of the
character list: the literal characters "http" followed by at least one
non-whitespace character. -/
def httpMatch : List Char → Bool
  | 'h' :: 't' :: 't' :: 'p' :: c :: _ => ! pyIsSpace c
  | _ => false

/-- Fuelled scanner for `re.sub("http\S+", "", s)`: at each position, if
`http\S+` matches, the matched run (the four letters and the maximal following
non-whitespace run) is deleted and scanning resumes after it; otherwise the
character is kept.  The fuel only needs to cover the length of the input. -/
def removeURLsF : Nat → List Char → List Char
  | 0, l => l
  | _, [] => []
  | fuel + 1, c :: cs =>
    if httpMatch (c :: cs) then
      removeURLsF fuel (((c :: cs).drop 4).dropWhile (fun d => ! pyIsSpace d))
    else
      c :: removeURLsF fuel cs

/-- The URL-removal step of `NLP_preprocessing_pipeline`:
`re.sub("http\S+", "", textual_sample)`. -/
def removeURLs (l : List Char) : List Char :=
  removeURLsF l.length l

/-- Modelled from the spec: the "strip markup tags" step
(`BeautifulSoup(...).get_text()` in the notebook).  Every span from a `<` to
the next `>` (or to the end of the input) is removed, all other characters are
kept. -/
def stripTagsF : Nat → List Char → List Char
  | 0, l => l
  | _, [] => []
  | fuel + 1, c :: cs =>
    if c = '<' then
      stripTagsF fuel ((cs.dropWhile (fun d => ! d = '>')).drop 1)
    else
      c :: stripTagsF fuel cs

/-- Modelled from the spec: markup-tag stripping as a function. -/
def stripTags (l : List Char) : List Char :=
  stripTagsF l.length l

/-- The non-alphabetic-removal step: `re.sub("[^a-zA-Z]", " ", s)` replaces
every character outside a-zA-Z by a space. -/
def replaceNonAlpha (l : List Char) : List Char :=
  l.map (fun c => if c.isAlpha then c else ' ')

/-- The lower-casing step: Python's `str.lower`, which on the letters-and-
spaces text produced by the previous step coincides with `Char.toLower`
applied character-wise. -/
def lowerAll (l : List Char) : List Char :=
  l.map Char.toLower

/-- Modelled from the spec: the tokenization step ("split into tokens",
`nltk.word_tokenize` in the notebook), which on the letters-and-spaces text
it receives is whitespace splitting.  Fuelled; the fuel only needs to cover
the length of the input.  Each emitted word is a maximal non-whitespace run. -/
def wordsF : Nat → List Char → List (List Char)
  | 0, _ => []
  | _, [] => []
  | fuel + 1, c :: cs =>
    if pyIsSpace c then
      wordsF fuel cs
    else
      (c :: cs.takeWhile (fun d => ! pyIsSpace d)) ::
        wordsF fuel (cs.dropWhile (fun d => ! pyIsSpace d))

/-- Split a character list into its whitespace-separated words. -/
def words (l : List Char) : List (List Char) :=
  wordsF l.length l

/-- The final re-joining step `' '.join(tokens)`: words separated by single
spaces, no leading or trailing space. -/
def joinSp : List (List Char) → List Char
  | [] => []
  | [w] => w
  | w :: ws => w ++ ' ' :: joinSp ws

/-- The token-list stage of `NLP_preprocessing_pipeline`, faithful to the
source order: remove URLs, strip markup, replace non-alphabetic characters by
spaces, lowercase, tokenize, drop stopwords, lemmatize.  The stopword list
`sw` models `stopwords.words("english")` and the per-token function `lem`
models `lemmatizer.lemmatize(w, get_wordnet_pos(w))`; both are external NLTK
resources passed here as parameters. -/
def pipelineToks (sw : List (List Char)) (lem : List Char → List Char)
    (l : List Char) : List (List Char) :=
  ((words (lowerAll (replaceNonAlpha (stripTags (removeURLs l))))).filter
    (fun w => ! sw.contains w)).map lem

/-- The notebook's `NLP_preprocessing_pipeline`: the cleaned tokens re-joined
into a single space-separated string. -/
def NLP_preprocessing_pipeline (sw : List (List Char))
    (lem : List Char → List Char) (s : String) : String :=
  String.mk (joinSp (pipelineToks sw lem s.toList))

/-- Number of occurrences of a token in the flattened corpus. -/
def corpusCount (corpus : List (List String)) (t : String) : Nat :=
  corpus.flatten.count t

/-- Insert a token into a frequency-sorted (descending) list of tokens. -/
def insertByFreq (cnt : String → Nat) (t : String) : List String → List String
  | [] => [t]
  | u :: us => if cnt u < cnt t then t :: u :: us else u :: insertByFreq cnt t us

/-- Sort tokens by descending corpus frequency (insertion sort). -/
def sortByFreq (cnt : String → Nat) : List String → List String
  | [] => []
  | t :: ts => insertByFreq cnt t (sortByFreq cnt ts)

/-- Modelled from the spec: the Vocabulary Builder learned by
`TextVectorization.adapt` (external Keras code).  Index 0 is the padding
marker `""`, index 1 the unknown marker `"[UNK]"`, and the remaining entries
are the `V - 2` most frequent distinct tokens of the training corpus in
descending frequency order. -/
def buildVocab (V : Nat) (corpus : List (List String)) : List String :=
  "" :: "[UNK]" ::
    ((sortByFreq (corpusCount corpus) corpus.flatten.dedup).take (V - 2))

/-- Modelled from the spec: vocabulary lookup of the vectorization layer.
A token present in the vocabulary maps to its (first) index; a token absent
from the vocabulary maps to the reserved unknown index 1.  Total by
construction - no failure case exists. -/
def tokenToIndex (vocab : List String) (t : String) : Nat :=
  if t ∈ vocab then vocab.indexOf t else 1

/-- Modelled from the spec: right-padding with the padding index 0 and
truncation to the fixed output length `L`. -/
def padTrunc (L : Nat) (xs : List Nat) : List Nat :=
  xs.take L ++ List.replicate (L - xs.length) 0

/-- Modelled from the spec: applying the adapted vectorization layer to one
tokenized document - map every token to its index, then pad or truncate to
the fixed length. -/
def vectorizeDoc (vocab : List String) (L : Nat) (doc : List String) :
    List Nat :=
  padTrunc L (doc.map (tokenToIndex vocab))

/-- Modelled from the spec: the state of the Keras `TextVectorization` layer -
its configuration (`max_tokens`, `output_sequence_length`) and the learned
vocabulary. -/
structure TVLayer where
  maxTokens : Nat
  outLen : Nat
  vocab : List String
deriving Repr, DecidableEq

/-- Modelled from the spec: `vectorize_layer.adapt(corpus)` replaces the
learned vocabulary with one built from the given corpus. -/
def TVLayer.adapt (tv : TVLayer) (corpus : List (List String)) : TVLayer :=
  { tv with vocab := buildVocab tv.maxTokens corpus }

/-- Modelled from the spec: invoking the adapted layer on a document.  The
call returns the fixed-length index sequence together with the (unchanged)
layer state, making explicit that applying the layer is a read-only use of
the vocabulary. -/
def TVLayer.call (tv : TVLayer) (doc : List String) : List Nat × TVLayer :=
  (vectorizeDoc tv.vocab tv.outLen doc, tv)

/-- The notebook's configured vocabulary size. -/
def vocab_size : Nat := 15000

/-- The notebook's configured output sequence length. -/
def seq_length : Nat := 100

/-- The notebook's `vectorize_layer` after `adapt` on a training corpus:
created with `max_tokens = vocab_size` and
`output_sequence_length = seq_length`, then adapted. -/
def vectorize_layer (corpus : List (List String)) : TVLayer :=
  TVLayer.adapt ⟨vocab_size, seq_length, []⟩ corpus

/-- The token-sequence materializer of the notebook
(`[vocab[w] for w in rev if vocab[w] not in ['','[UNK]']]`): emit the
vocabulary string at every index whose string is neither the padding marker
nor the unknown marker, preserving order. -/
def materializeTokens (vocab : List String) (seq : List Nat) : List String :=
  seq.filterMap (fun i =>
    let t := vocab.getD i ""
    if t = "" || t = "[UNK]" then none else some t)

/-- The embedding-table assembly loop of the notebook
(`for token_idx in range(0, len(vocab)): ...`): for an index greater than 1,
the trained vector of the vocabulary token when the trained mapping `wv`
contains it, else the default-initialized row at the unknown index 1; for
indices 0 and 1 the default-initialized row at that index.  `dflt` models
`embedding_layer.get_weights()[0]`, the default-initialized weight rows. -/
def assembleTable {α : Type _} (vocab : List String)
    (wv : List (String × α)) (dflt : Nat → α) : List α :=
  (List.range vocab.length).map (fun i =>
    if 1 < i then
      match wv.lookup (vocab.getD i "") with
      | some v => v
      | none => dflt 1
    else dflt i)

/-- Modelled from the spec: the elided classification step
(`np.where(...)` on the model's probability outputs) converts a probability
into a binary class at the fixed decision threshold 0.5, with probabilities
at or above the threshold classified as positive. -/
def toBinaryClass (p : ℚ) : Nat :=
  if 1 / 2 ≤ p then 1 else 0

/-! ## Helper lemmas -/

theorem assembleTable_length {α : Type _} (vocab : List String)
    (wv : List (String × α)) (dflt : Nat → α) :
    (assembleTable vocab wv dflt).length = vocab.length := by
  simp [assembleTable]

theorem assembleTable_get {α : Type _} (vocab : List String)
    (wv : List (String × α)) (dflt : Nat → α) (i : Nat)
    (hi : i < vocab.length) :
    (assembleTable vocab wv dflt).get
      ⟨i, by rw [assembleTable_length]; exact hi⟩ =
      (if 1 < i then
        match wv.lookup (vocab.getD i "") with
        | some v => v
        | none => dflt 1
       else dflt i) := by
  simp [assembleTable]

theorem padTrunc_length (L : Nat) (xs : List Nat) :
    (padTrunc L xs).length = L := by
  simp only [padTrunc, List.length_append, List.length_take,
    List.length_replicate]
  omega

theorem insertByFreq_length (cnt : String → Nat) (t : String)
    (l : List String) : (insertByFreq cnt t l).length = l.length + 1 := by
  induction l with
  | nil => rfl
  | cons u us ih =>
    simp only [insertByFreq]
    split <;> simp [ih]

theorem sortByFreq_length (cnt : String → Nat) (l : List String) :
    (sortByFreq cnt l).length = l.length := by
  induction l with
  | nil => rfl
  | cons t ts ih => simp [sortByFreq, insertByFreq_length, ih]

theorem buildVocab_length (V : Nat) (corpus : List (List String))
    (hV : 2 ≤ V) :
    (buildVocab V corpus).length = min V (2 + corpus.flatten.dedup.length) := by
  simp only [buildVocab, List.length_cons, List.length_take, sortByFreq_length]
  omega

theorem tvCall_state (tv : TVLayer) (doc : List String) :
    (TVLayer.call tv doc).2 = tv := rfl

/-! ## Claims -/

/-- C1.  Embedding Table Assembler rule: row `i` of the assembled table is the
default-initialized row `i` when `i` is 0 or 1; for `i > 1` it is the trained
vector of `vocab[i]` when the trained mapping contains that token, and the
fallback vector (the default-initialized row at the unknown index 1)
otherwise.  In particular, for trained mapping {"good": [0.1,0.2]}, default
rows [7,7] at 0 and [0,0] elsewhere (so the fallback is [0,0]), and the
vocabulary ["", "[UNK]", "film", "good"], the table is
[default0, default1, fallback, [0.1,0.2]]. -/
theorem embedding_row_rule :
    (∀ {α : Type} (vocab : List String) (wv : List (String × α))
      (dflt : Nat → α) (i : Nat) (hi : i < vocab.length),
      (assembleTable vocab wv dflt).get
        ⟨i, by rw [assembleTable_length]; exact hi⟩ =
        (if 1 < i then
          match wv.lookup (vocab.getD i "") with
          | some v => v
          | none => dflt 1
         else dflt i)) ∧
    assembleTable ["", "[UNK]", "film", "good"]
      [("good", [(0.1 : ℚ), 0.2])]
      (fun j => if j = 0 then [7, 7] else [0, 0]) =
      [[7, 7], [0, 0], [0, 0], [0.1, 0.2]] := by
  constructor
  · intro α vocab wv dflt i hi
    exact assembleTable_get vocab wv dflt i hi
  · rfl

/-- Witness for C1: instantiating the row rule at index 2 of the example
scenario yields the fallback vector (the default-initialized unknown row). -/
theorem embedding_row_rule_witness :
    (assembleTable ["", "[UNK]", "film", "good"]
      [("good", [(0.1 : ℚ), 0.2])]
      (fun j => if j = 0 then [7, 7] else [0, 0])).get
        ⟨2, by rw [assembleTable_length]; decide⟩ = [0, 0] := by
  have h := embedding_row_rule.1 (α := List ℚ)
    ["", "[UNK]", "film", "good"]
    [("good", [(0.1 : ℚ), 0.2])]
    (fun j => if j = 0 then [7, 7] else [0, 0]) 2 (by decide)
  exact h.trans rfl

/-- C2.  For every input document the TokenIdSequence produced by the adapted
vectorization layer has length exactly 100: shorter documents are right-padded
with the padding index 0 and longer ones truncated. -/
theorem vectorize_output_length (corpus : List (List String))
    (doc : List String) :
    (((vectorize_layer corpus).call doc).1).length = 100 := by
  simp [TVLayer.call, vectorizeDoc, padTrunc_length, vectorize_layer,
    TVLayer.adapt, seq_length]

/-- C3.  No vocabulary leakage: invoking the vectorization layer on a
document returns the layer state unchanged, and in particular folding any
sequence of validation/test documents through the adapted layer leaves the
learned token-to-index mapping exactly as built from the training split. -/
theorem vectorize_no_leakage :
    (∀ (tv : TVLayer) (doc : List String),
      ((TVLayer.call tv doc).2).vocab = tv.vocab) ∧
    (∀ (V : Nat) (train tests : List (List String)),
      (tests.foldl (fun s d => (TVLayer.call s d).2)
          (TVLayer.adapt ⟨V, seq_length, []⟩ train)).vocab =
        (TVLayer.adapt ⟨V, seq_length, []⟩ train).vocab) := by
  have hfold : ∀ (l : List (List String)) (tv : TVLayer),
      l.foldl (fun s d => (TVLayer.call s d).2) tv = tv := by
    intro l
    induction l with
    | nil => intro tv; rfl
    | cons d ds ih => intro tv; simp [TVLayer.call]
  exact ⟨fun tv doc => rfl, fun V train tests => by rw [hfold]⟩

/-- C5 (amended).  The assembled EmbeddingTable has exactly as many rows as
the vocabulary list, and the built vocabulary has
`min V (2 + number of distinct corpus tokens)` entries - so the table has `V`
rows exactly when the training corpus supplies at least `V - 2` distinct
tokens, not for every corpus. -/
theorem embedding_table_rows {α : Type _} (V : Nat)
    (corpus : List (List String)) (wv : List (String × α)) (dflt : Nat → α)
    (hV : 2 ≤ V) :
    (assembleTable (buildVocab V corpus) wv dflt).length =
        (buildVocab V corpus).length ∧
      (buildVocab V corpus).length =
        min V (2 + corpus.flatten.dedup.length) := by
  exact ⟨assembleTable_length _ _ _, buildVocab_length V corpus hV⟩

/-- Counterexample for C5 as stated: for a training corpus with a single
distinct token, the assembled table does not have `vocab_size = 15000` rows
(it has 3). -/
theorem embedding_table_rows_counterexample :
    (assembleTable (buildVocab vocab_size [["a"]])
        ([] : List (String × List ℚ)) (fun _ => ([] : List ℚ))).length ≠
      vocab_size := by
  decide

/-- Witness for the amended C5 at the one-token corpus. -/
theorem embedding_table_rows_witness :
    (assembleTable (buildVocab vocab_size [["a"]])
        ([] : List (String × List ℚ)) (fun _ => ([] : List ℚ))).length =
        (buildVocab vocab_size [["a"]]).length ∧
      (buildVocab vocab_size [["a"]]).length =
        min vocab_size (2 + ([["a"]] : List (List String)).flatten.dedup.length) :=
  embedding_table_rows vocab_size [["a"]] [] (fun _ => []) (by decide)

/-- C7.  Vocabulary lookup is total (it is a function into `Nat`, with no
failure case) and every token absent from the learned vocabulary resolves to
the reserved unknown index 1. -/
theorem tokenToIndex_unknown (vocab : List String) (t : String)
    (h : t ∉ vocab) : tokenToIndex vocab t = 1 := by
  simp [tokenToIndex, h]

/-- Witness for C7: a token absent from the example vocabulary maps to 1. -/
theorem tokenToIndex_unknown_witness :
    tokenToIndex ["", "[UNK]", "film", "good"] "zebra" = 1 :=
  tokenToIndex_unknown _ _ (by decide)

/-- C8.  Decision-threshold behaviour: for every probability `p` in [0,1] the
assigned class is 1 exactly when `p ≥ 1/2` and 0 exactly when `p < 1/2`; in
particular 0.5 classifies as positive and 0.4999 classifies as negative. -/
theorem threshold_behaviour (p : ℚ) (h0 : 0 ≤ p) (h1 : p ≤ 1) :
    (toBinaryClass p = 1 ↔ 1 / 2 ≤ p) ∧
      (toBinaryClass p = 0 ↔ p < 1 / 2) ∧
      toBinaryClass (1 / 2) = 1 ∧
      toBinaryClass (4999 / 10000) = 0 := by
  refine ⟨?_, ?_, ?_, ?_⟩
  · simp only [toBinaryClass]
    split <;> simp_all
  · simp only [toBinaryClass]
    split <;> rename_i hc
    · exact ⟨fun h => absurd h one_ne_zero, fun h => absurd hc (not_le.mpr h)⟩
    · exact ⟨fun _ => lt_of_not_le hc, fun _ => rfl⟩
  · simp [toBinaryClass]
  · simp only [toBinaryClass]
    norm_num

/-- Witness for C8 at the concrete probability 0. -/
theorem threshold_behaviour_witness :
    (toBinaryClass 0 = 1 ↔ (1 : ℚ) / 2 ≤ 0) ∧
      (toBinaryClass 0 = 0 ↔ (0 : ℚ) < 1 / 2) ∧
      toBinaryClass (1 / 2) = 1 ∧
      toBinaryClass (4999 / 10000) = 0 :=
  threshold_behaviour 0 (le_refl 0) zero_le_one

/-- C9.  In one assembled table, every row at an index `i > 1` whose
vocabulary token is absent from the trained mapping equals row 1 (the
default-initialized unknown row); consequently any two such fallback rows are
identical. -/
theorem fallback_rows_eq_unknown_row {α : Type _} (vocab : List String)
    (wv : List (String × α)) (dflt : Nat → α) (i j : Nat)
    (hv : 1 < vocab.length)
    (hi : 1 < i) (hiv : i < vocab.length)
    (hina : wv.lookup (vocab.getD i "") = none)
    (hj : 1 < j) (hjv : j < vocab.length)
    (hjna : wv.lookup (vocab.getD j "") = none) :
    (assembleTable vocab wv dflt).get
        ⟨i, by rw [assembleTable_length]; exact hiv⟩ =
      (assembleTable vocab wv dflt).get
        ⟨1, by rw [assembleTable_length]; exact hv⟩ ∧
    (assembleTable vocab wv dflt).get
        ⟨i, by rw [assembleTable_length]; exact hiv⟩ =
      (assembleTable vocab wv dflt).get
        ⟨j, by rw [assembleTable_length]; exact hjv⟩ := by
  rw [assembleTable_get vocab wv dflt i hiv,
    assembleTable_get vocab wv dflt 1 hv,
    assembleTable_get vocab wv dflt j hjv]
  rw [if_pos hi, if_pos hj, if_neg (by omega : ¬ 1 < 1), hina, hjna]
  exact ⟨rfl, rfl⟩

/-- Witness for C9: in the example table both untrained rows (indices 2 and 3
with an empty trained mapping) equal the unknown row 1. -/
theorem fallback_rows_eq_unknown_row_witness :
    (assembleTable ["", "[UNK]", "film", "good"]
        ([] : List (String × List ℚ)) (fun j => [(j : ℚ)])).get
        ⟨2, by rw [assembleTable_length]; decide⟩ =
      (assembleTable ["", "[UNK]", "film", "good"]
        ([] : List (String × List ℚ)) (fun j => [(j : ℚ)])).get
        ⟨1, by rw [assembleTable_length]; decide⟩ ∧
    (assembleTable ["", "[UNK]", "film", "good"]
        ([] : List (String × List ℚ)) (fun j => [(j : ℚ)])).get
        ⟨2, by rw [assembleTable_length]; decide⟩ =
      (assembleTable ["", "[UNK]", "film", "good"]
        ([] : List (String × List ℚ)) (fun j => [(j : ℚ)])).get
        ⟨3, by rw [assembleTable_length]; decide⟩ :=
  fallback_rows_eq_unknown_row ["", "[UNK]", "film", "good"]
    ([] : List (String × List ℚ)) (fun j => [(j : ℚ)]) 2 3 (by decide)
    (by decide) (by decide) rfl (by decide) (by decide) rfl

def nonReserved (xs : List Nat) : List Nat :=
  xs.filter (fun i => decide (1 < i))

theorem tokenToIndex_lt (vocab : List String) (t : String)
    (h2 : 2 ≤ vocab.length) : tokenToIndex vocab t < vocab.length := by
  unfold tokenToIndex
  split
  · exact List.indexOf_lt_length.mpr (by assumption)
  · omega

theorem mem_vectorizeDoc_lt (vocab : List String) (L : Nat)
    (doc : List String) (h2 : 2 ≤ vocab.length) :
    ∀ x ∈ vectorizeDoc vocab L doc, x < vocab.length := by
  intro x hx
  unfold vectorizeDoc padTrunc at hx
  rcases List.mem_append.mp hx with h | h
  · rcases List.mem_map.mp (List.mem_of_mem_take h) with ⟨t, _, rfl⟩
    exact tokenToIndex_lt vocab t h2
  · rw [List.eq_of_mem_replicate h]
    omega

theorem getD_le_getElem (vocab : List String) (i : Nat) (hlt : i < vocab.length) :
    vocab.getD i "" = vocab.get ⟨i, hlt⟩ := by
  rw [List.getD_eq_getElem?_getD, List.getElem?_eq_getElem hlt,
    Option.getD_some, List.get_eq_getElem]

theorem getD_not_reserved (vocab : List String) (hnd : vocab.Nodup)
    (h0 : vocab[0]? = some "") (h1 : vocab[1]? = some "[UNK]")
    (i : Nat) (hge : 2 ≤ i) (hlt : i < vocab.length) :
    ¬ (vocab.getD i "" = "" ∨ vocab.getD i "" = "[UNK]") := by
  obtain ⟨hl0, he0⟩ := List.getElem?_eq_some.mp h0
  obtain ⟨hl1, he1⟩ := List.getElem?_eq_some.mp h1
  have hget := getD_le_getElem vocab i hlt
  rintro (h | h)
  · have heq : vocab.get ⟨i, hlt⟩ = vocab.get ⟨0, hl0⟩ := by
      rw [← hget, h, List.get_eq_getElem, he0]
    have := hnd.get_inj_iff.mp heq
    simp only [Fin.mk.injEq] at this
    omega
  · have heq : vocab.get ⟨i, hlt⟩ = vocab.get ⟨1, hl1⟩ := by
      rw [← hget, h, List.get_eq_getElem, he1]
    have := hnd.get_inj_iff.mp heq
    simp only [Fin.mk.injEq] at this
    omega

theorem materialize_eq_filter_map (vocab : List String) (hnd : vocab.Nodup)
    (h0 : vocab[0]? = some "") (h1 : vocab[1]? = some "[UNK]")
    (seq : List Nat) (hmem : ∀ x ∈ seq, x < vocab.length) :
    materializeTokens vocab seq =
      (nonReserved seq).map (fun i => vocab.getD i "") := by
  induction seq with
  | nil => rfl
  | cons x xs ih =>
    have hx : x < vocab.length := hmem x (List.mem_cons_self x xs)
    have ih2 := ih (fun y hy => hmem y (List.mem_cons_of_mem x hy))
    simp only [materializeTokens, nonReserved, List.filterMap_cons,
      List.filter_cons] at ih2 ⊢
    by_cases hge : 2 ≤ x
    · have hnr := getD_not_reserved vocab hnd h0 h1 x hge hx
      have ha : ¬ vocab.getD x "" = "" := fun h => hnr (Or.inl h)
      have hb : ¬ vocab.getD x "" = "[UNK]" := fun h => hnr (Or.inr h)
      rw [if_neg (show ¬ ((decide (vocab.getD x "" = "") ||
            decide (vocab.getD x "" = "[UNK]")) = true) from by
          simp only [Bool.or_eq_true, decide_eq_true_eq, not_or]
          exact ⟨ha, hb⟩),
        if_pos (show (decide (1 < x)) = true from by
          simp only [decide_eq_true_eq]; omega)]
      simp only [List.map_cons]
      rw [ih2]
    · interval_cases x
      · obtain ⟨hl0, he0⟩ := List.getElem?_eq_some.mp h0
        have hg : vocab.getD 0 "" = "" := by
          rw [getD_le_getElem vocab 0 hl0, List.get_eq_getElem, he0]
        rw [if_pos (show ((decide (vocab.getD 0 "" = "") ||
              decide (vocab.getD 0 "" = "[UNK]")) = true) from by
            simp only [Bool.or_eq_true, decide_eq_true_eq]
            exact Or.inl hg),
          if_neg (show ¬ ((decide ((1:Nat) < 0)) = true) from by decide)]
        exact ih2
      · obtain ⟨hl1, he1⟩ := List.getElem?_eq_some.mp h1
        have hg : vocab.getD 1 "" = "[UNK]" := by
          rw [getD_le_getElem vocab 1 hl1, List.get_eq_getElem, he1]
        rw [if_pos (show ((decide (vocab.getD 1 "" = "") ||
              decide (vocab.getD 1 "" = "[UNK]")) = true) from by
            simp only [Bool.or_eq_true, decide_eq_true_eq]
            exact Or.inr hg),
          if_neg (show ¬ ((decide ((1:Nat) < 1)) = true) from by decide)]
        exact ih2

theorem tokenToIndex_getD (vocab : List String) (hnd : vocab.Nodup)
    (i : Nat) (hlt : i < vocab.length) :
    tokenToIndex vocab (vocab.getD i "") = i := by
  rw [getD_le_getElem vocab i hlt]
  have hmem : vocab.get ⟨i, hlt⟩ ∈ vocab := List.get_mem vocab i hlt
  unfold tokenToIndex
  rw [if_pos hmem]
  have hidx : List.indexOf (vocab.get ⟨i, hlt⟩) vocab < vocab.length :=
    List.indexOf_lt_length.mpr hmem
  have heq : vocab.get ⟨List.indexOf (vocab.get ⟨i, hlt⟩) vocab, hidx⟩ =
      vocab.get ⟨i, hlt⟩ := List.indexOf_get hidx
  have := hnd.get_inj_iff.mp heq
  simpa using this

theorem nonReserved_padTrunc (L : Nat) (xs : List Nat) :
    nonReserved (padTrunc L xs) = nonReserved (xs.take L) := by
  unfold nonReserved padTrunc
  rw [List.filter_append]
  have : (List.replicate (L - xs.length) 0).filter (fun i => decide (1 < i)) = [] := by
    induction (L - xs.length) with
    | zero => rfl
    | succ n ihn => simpa [List.replicate_succ]
  rw [this, List.append_nil]

theorem nonReserved_idem (xs : List Nat) :
    nonReserved (nonReserved xs) = nonReserved xs := by
  unfold nonReserved
  rw [List.filter_filter]
  simp

/-- C4.  Round-trip: for every TokenIdSequence produced from a document with
a well-formed vocabulary (no duplicate entries, padding marker at index 0,
unknown marker at index 1), materializing its tokens and re-encoding the
token list through the vectorization layer with the same vocabulary and
length reproduces exactly the same non-padding, non-unknown indices in the
same order. -/
theorem materialize_reencode_roundtrip (vocab : List String)
    (doc : List String) (L : Nat) (hnd : vocab.Nodup)
    (h0 : vocab[0]? = some "") (h1 : vocab[1]? = some "[UNK]") :
    nonReserved (vectorizeDoc vocab L
        (materializeTokens vocab (vectorizeDoc vocab L doc))) =
      nonReserved (vectorizeDoc vocab L doc) := by
  have h2 : 2 ≤ vocab.length := by
    obtain ⟨hl1, _⟩ := List.getElem?_eq_some.mp h1
    omega
  have hmem := mem_vectorizeDoc_lt vocab L doc h2
  rw [materialize_eq_filter_map vocab hnd h0 h1 _ hmem]
  have hre : ((nonReserved (vectorizeDoc vocab L doc)).map
      (fun i => vocab.getD i "")).map (tokenToIndex vocab) =
      nonReserved (vectorizeDoc vocab L doc) := by
    rw [List.map_map]
    have := List.map_congr_left (l := nonReserved (vectorizeDoc vocab L doc))
      (f := tokenToIndex vocab ∘ fun i => vocab.getD i "") (g := id)
      (fun i hi => by
        have hilt : i < vocab.length := hmem i (List.mem_of_mem_filter hi)
        exact tokenToIndex_getD vocab hnd i hilt)
    rw [this, List.map_id]
  conv_lhs => rw [vectorizeDoc, hre]
  have hlen : (nonReserved (vectorizeDoc vocab L doc)).length ≤ L := by
    have := List.length_filter_le (fun i => decide (1 < i))
      (vectorizeDoc vocab L doc)
    have hL : (vectorizeDoc vocab L doc).length = L := padTrunc_length L _
    unfold nonReserved
    omega
  rw [nonReserved_padTrunc, List.take_of_length_le hlen, nonReserved_idem]

/-- Witness for C4 at the spec's example scenario: vocabulary
["", "[UNK]", "film", "good"], length 5, document ["film","good","film"]. -/
theorem materialize_reencode_roundtrip_witness :
    nonReserved (vectorizeDoc ["", "[UNK]", "film", "good"] 5
        (materializeTokens ["", "[UNK]", "film", "good"]
          (vectorizeDoc ["", "[UNK]", "film", "good"] 5
            ["film", "good", "film"]))) =
      nonReserved (vectorizeDoc ["", "[UNK]", "film", "good"] 5
        ["film", "good", "film"]) :=
  materialize_reencode_roundtrip ["", "[UNK]", "film", "good"]
    ["film", "good", "film"] 5 (by decide) (by decide) (by decide)

theorem uint32_le_toNat {a b : UInt32} (h : a ≤ b) : a.toNat ≤ b.toNat := by
  rw [UInt32.le_def, BitVec.le_def] at h
  exact h

theorem char_isUpper_bounds (c : Char) (h : c.isUpper = true) :
    65 ≤ c.toNat ∧ c.toNat ≤ 90 := by
  simp only [Char.isUpper, Bool.and_eq_true, decide_eq_true_eq, ge_iff_le] at h
  obtain ⟨h1, h2⟩ := h
  have g1 := uint32_le_toNat h1
  have g2 := uint32_le_toNat h2
  simp [Char.toNat, UInt32.toNat] at *
  constructor <;> omega

theorem char_isLower_bounds (c : Char) (h : c.isLower = true) :
    97 ≤ c.toNat ∧ c.toNat ≤ 122 := by
  simp only [Char.isLower, Bool.and_eq_true, decide_eq_true_eq, ge_iff_le] at h
  obtain ⟨h1, h2⟩ := h
  have g1 := uint32_le_toNat h1
  have g2 := uint32_le_toNat h2
  simp [Char.toNat, UInt32.toNat] at *
  constructor <;> omega

theorem char_toNat_ofNat (n : Nat) (h : n.isValidChar) :
    (Char.ofNat n).toNat = n := by
  simp only [Char.ofNat, dif_pos h]
  simp [Char.ofNatAux, Char.toNat, UInt32.toNat]

theorem toLower_of_lower (c : Char) (h : lowerAlphaChar c = true) :
    c.toLower = c := by
  simp only [lowerAlphaChar, Bool.and_eq_true, decide_eq_true_eq] at h
  have hn : ¬ (c.toNat ≥ 65 ∧ c.toNat ≤ 90) := by omega
  simp [Char.toLower, hn]

theorem toLower_of_upper (c : Char) (h : c.isUpper = true) :
    lowerAlphaChar c.toLower = true := by
  have hb := char_isUpper_bounds c h
  have hv : (c.toNat + 32).isValidChar := Or.inl (by omega)
  have he : (Char.ofNat (c.toNat + 32)).toNat = c.toNat + 32 :=
    char_toNat_ofNat _ hv
  simp only [Char.toLower, if_pos (by omega : c.toNat ≥ 65 ∧ c.toNat ≤ 90)]
  simp only [lowerAlphaChar, he, Bool.and_eq_true, decide_eq_true_eq]
  omega

theorem lowerAlpha_toNat (c : Char) (h : lowerAlphaChar c = true) :
    97 ≤ c.toNat ∧ c.toNat ≤ 122 := by
  simpa [lowerAlphaChar] using h

theorem lowerAlpha_not_space (c : Char) (h : lowerAlphaChar c = true) :
    pyIsSpace c = false := by
  have hb := lowerAlpha_toNat c h
  simp only [pyIsSpace, Bool.or_eq_false_iff, decide_eq_false_iff_not]
  refine ⟨⟨⟨⟨⟨?_, ?_⟩, ?_⟩, ?_⟩, ?_⟩, ?_⟩ <;>
    · intro he
      rw [he] at hb
      revert hb
      decide

theorem lowerAlpha_ne_lt (c : Char) (h : lowerAlphaChar c = true) :
    c ≠ '<' := by
  have hb := lowerAlpha_toNat c h
  intro he
  rw [he] at hb
  revert hb
  decide

theorem lowerAlpha_isAlpha (c : Char) (h : lowerAlphaChar c = true) :
    c.isAlpha = true := by
  have hb := lowerAlpha_toNat c h
  have hlo : c.isLower = true := by
    simp only [Char.isLower, Bool.and_eq_true, decide_eq_true_eq, ge_iff_le]
    rw [UInt32.le_def, BitVec.le_def, UInt32.le_def, BitVec.le_def]
    simp only [Char.toNat, UInt32.toNat] at hb
    constructor
    · simpa using hb.1
    · simpa using hb.2
  simp [Char.isAlpha, hlo]

theorem takeWhile_append_all {α : Type _} {p : α → Bool} (xs ys : List α)
    (h : ∀ x ∈ xs, p x = true) :
    (xs ++ ys).takeWhile p = xs ++ ys.takeWhile p := by
  induction xs with
  | nil => rfl
  | cons a l ih =>
    simp only [List.cons_append, List.takeWhile_cons,
      h a (List.mem_cons_self a l), if_pos trivial]
    rw [ih (fun x hx => h x (List.mem_cons_of_mem a hx))]

theorem dropWhile_append_all {α : Type _} {p : α → Bool} (xs ys : List α)
    (h : ∀ x ∈ xs, p x = true) :
    (xs ++ ys).dropWhile p = ys.dropWhile p := by
  induction xs with
  | nil => rfl
  | cons a l ih =>
    simp only [List.cons_append, List.dropWhile_cons,
      h a (List.mem_cons_self a l), if_pos trivial]
    exact ih (fun x hx => h x (List.mem_cons_of_mem a hx))

theorem wordsF_nil (fuel : Nat) : wordsF fuel [] = [] := by
  cases fuel <;> rfl

theorem wordsF_fuel_irrel (fuel₁ : Nat) :
    ∀ (fuel₂ : Nat) (l : List Char), l.length ≤ fuel₁ → l.length ≤ fuel₂ →
      wordsF fuel₁ l = wordsF fuel₂ l := by
  induction fuel₁ with
  | zero =>
    intro fuel₂ l h1 _
    have hl : l = [] := List.length_eq_zero.mp (by omega)
    rw [hl, wordsF_nil, wordsF_nil]
  | succ f ih =>
    intro fuel₂ l h1 h2
    cases l with
    | nil => rw [wordsF_nil, wordsF_nil]
    | cons c cs =>
      cases fuel₂ with
      | zero => simp at h2
      | succ g =>
        simp only [wordsF]
        by_cases hc : pyIsSpace c
        · rw [if_pos hc, if_pos hc]
          exact ih g cs (by simp at h1; omega) (by simp at h2; omega)
        · rw [if_neg hc, if_neg hc]
          have hd : (cs.dropWhile (fun d => ! pyIsSpace d)).length ≤ cs.length :=
            (List.dropWhile_sublist _).length_le
          rw [ih g (cs.dropWhile (fun d => ! pyIsSpace d))
            (by simp at h1; omega) (by simp at h2; omega)]

theorem words_single (w : List Char) (hw : w ≠ [])
    (hns : ∀ c ∈ w, pyIsSpace c = false) : words w = [w] := by
  cases w with
  | nil => exact absurd rfl hw
  | cons c w₂ =>
    unfold words
    simp only [List.length_cons, wordsF]
    rw [if_neg (by simp [hns c (List.mem_cons_self c w₂)])]
    rw [List.takeWhile_eq_self_iff.mpr
      (fun x hx => by simp [hns x (List.mem_cons_of_mem c hx)])]
    rw [List.dropWhile_eq_nil_iff.mpr
      (fun x hx => by simp [hns x (List.mem_cons_of_mem c hx)])]
    rw [wordsF_nil]

theorem wordsF_append_word (w t : List Char) (hw : w ≠ [])
    (hns : ∀ c ∈ w, pyIsSpace c = false) (fuel : Nat)
    (hf : w.length + 1 + t.length ≤ fuel) :
    wordsF fuel (w ++ ' ' :: t) = w :: wordsF t.length t := by
  cases w with
  | nil => exact absurd rfl hw
  | cons c w₂ =>
    cases fuel with
    | zero => simp at hf
    | succ f =>
      simp only [List.cons_append, wordsF]
      rw [if_neg (by simp [hns c (List.mem_cons_self c w₂)])]
      have hw₂ : ∀ x ∈ w₂, (fun d => ! pyIsSpace d) x = true :=
        fun x hx => by simp [hns x (List.mem_cons_of_mem c hx)]
      simp only [List.append_eq]
      rw [takeWhile_append_all w₂ (' ' :: t) hw₂,
        dropWhile_append_all w₂ (' ' :: t) hw₂]
      rw [List.takeWhile_cons, if_neg (by simp [pyIsSpace]), List.append_nil]
      rw [List.dropWhile_cons, if_neg (by simp [pyIsSpace])]
      cases f with
      | zero => simp at hf; omega
      | succ g =>
        simp only [wordsF]
        rw [if_pos (by simp [pyIsSpace] : pyIsSpace ' ' = true)]
        rw [wordsF_fuel_irrel g t.length t (by simp at hf; omega) (le_refl _)]

theorem words_joinSp (ws : List (List Char))
    (h : ∀ w ∈ ws, w ≠ [] ∧ ∀ c ∈ w, pyIsSpace c = false) :
    words (joinSp ws) = ws := by
  induction ws with
  | nil => rfl
  | cons w ws₂ ih =>
    cases ws₂ with
    | nil =>
      have hw := h w (List.mem_cons_self w [])
      exact words_single w hw.1 hw.2
    | cons w₂ ws₃ =>
      have hw := h w (List.mem_cons_self w _)
      show words (w ++ ' ' :: joinSp (w₂ :: ws₃)) = w :: (w₂ :: ws₃)
      unfold words
      rw [wordsF_append_word w (joinSp (w₂ :: ws₃)) hw.1 hw.2 _
        (by simp [List.length_append]; omega)]
      have := ih (fun u hu => h u (List.mem_cons_of_mem w hu))
      unfold words at this
      rw [this]

theorem wordsF_token_chars (fuel : Nat) :
    ∀ (l : List Char) (w : List Char), w ∈ wordsF fuel l →
      w ≠ [] ∧ ∀ c ∈ w, c ∈ l ∧ pyIsSpace c = false := by
  induction fuel with
  | zero => intro l w hw; simp [wordsF] at hw
  | succ f ih =>
    intro l w hw
    cases l with
    | nil => simp [wordsF] at hw
    | cons c cs =>
      simp only [wordsF] at hw
      by_cases hc : pyIsSpace c
      · rw [if_pos hc] at hw
        obtain ⟨hne, hch⟩ := ih cs w hw
        exact ⟨hne, fun d hd =>
          ⟨List.mem_cons_of_mem c (hch d hd).1, (hch d hd).2⟩⟩
      · rw [if_neg hc] at hw
        rcases List.mem_cons.mp hw with rfl | hw₂
        · refine ⟨by simp, fun d hd => ?_⟩
          rcases List.mem_cons.mp hd with rfl | hd₂
          · exact ⟨List.mem_cons_self d cs,
              Bool.eq_false_iff.mpr (fun hb => hc hb)⟩
          · have hp := List.mem_takeWhile_imp hd₂
            have hm := (List.takeWhile_prefix
              (fun d => ! pyIsSpace d)).subset hd₂
            simp only [Bool.not_eq_eq_eq_not, Bool.not_true] at hp
            exact ⟨List.mem_cons_of_mem c hm, by simpa using hp⟩
        · obtain ⟨hne, hch⟩ := ih _ w hw₂
          exact ⟨hne, fun d hd =>
            ⟨List.mem_cons_of_mem c
              ((List.dropWhile_sublist _).subset (hch d hd).1),
              (hch d hd).2⟩⟩

/-- The normalized output contains no occurrence of "http" followed by a
non-whitespace character (so the URL-removal pass leaves it unchanged). -/
def noHttpRun (l : List Char) : Prop :=
  ∀ t ∈ l.tails, httpMatch t = false

instance (l : List Char) : Decidable (noHttpRun l) := by
  unfold noHttpRun
  infer_instance

theorem removeURLsF_id (fuel : Nat) :
    ∀ l : List Char, noHttpRun l → removeURLsF fuel l = l := by
  induction fuel with
  | zero => intro l _; cases l <;> rfl
  | succ f ih =>
    intro l hl
    cases l with
    | nil => rfl
    | cons c cs =>
      simp only [removeURLsF]
      rw [if_neg (by
        rw [hl (c :: cs) ((List.mem_tails _ _).mpr (List.suffix_refl _))]
        simp)]
      rw [ih cs (fun t ht => hl t ((List.mem_tails _ _).mpr
        (((List.mem_tails _ _).mp ht).trans (List.suffix_cons c cs))))]

theorem removeURLs_id (l : List Char) (h : noHttpRun l) : removeURLs l = l :=
  removeURLsF_id l.length l h

theorem stripTagsF_id (fuel : Nat) :
    ∀ l : List Char, '<' ∉ l → stripTagsF fuel l = l := by
  induction fuel with
  | zero => intro l _; cases l <;> rfl
  | succ f ih =>
    intro l hl
    cases l with
    | nil => rfl
    | cons c cs =>
      simp only [stripTagsF]
      rw [if_neg (fun hc => hl (by rw [← hc]; exact List.mem_cons_self c cs))]
      rw [ih cs (fun hc => hl (List.mem_cons_of_mem c hc))]

theorem stripTags_id (l : List Char) (h : '<' ∉ l) : stripTags l = l :=
  stripTagsF_id l.length l h

theorem replaceNonAlpha_id (l : List Char)
    (h : ∀ c ∈ l, lowerAlphaChar c = true ∨ c = ' ') :
    replaceNonAlpha l = l := by
  unfold replaceNonAlpha
  rw [List.map_congr_left (g := id) (fun c hc => by
    rcases h c hc with hca | rfl
    · simp [lowerAlpha_isAlpha c hca]
    · rfl)]
  exact List.map_id l

theorem lowerAll_id (l : List Char)
    (h : ∀ c ∈ l, lowerAlphaChar c = true ∨ c = ' ') :
    lowerAll l = l := by
  unfold lowerAll
  rw [List.map_congr_left (g := id) (fun c hc => by
    rcases h c hc with hca | rfl
    · exact toLower_of_lower c hca
    · rfl)]
  exact List.map_id l

theorem mem_joinSp (ws : List (List Char)) (c : Char) (hc : c ∈ joinSp ws) :
    (∃ w ∈ ws, c ∈ w) ∨ c = ' ' := by
  induction ws with
  | nil => simp [joinSp] at hc
  | cons w ws₂ ih =>
    cases ws₂ with
    | nil => exact Or.inl ⟨w, List.mem_cons_self w [], hc⟩
    | cons w₂ ws₃ =>
      rcases List.mem_append.mp hc with hw | hrest
      · exact Or.inl ⟨w, List.mem_cons_self w _, hw⟩
      · rcases List.mem_cons.mp hrest with rfl | hj
        · exact Or.inr rfl
        · rcases ih hj with ⟨u, hu, hcu⟩ | hsp
          · exact Or.inl ⟨u, List.mem_cons_of_mem w hu, hcu⟩
          · exact Or.inr hsp

theorem lowerAll_replaceNonAlpha_chars (l : List Char) :
    ∀ c ∈ lowerAll (replaceNonAlpha l), lowerAlphaChar c = true ∨ c = ' ' := by
  intro c hc
  unfold lowerAll replaceNonAlpha at hc
  rw [List.map_map] at hc
  rcases List.mem_map.mp hc with ⟨d, _, rfl⟩
  simp only [Function.comp]
  by_cases hd : d.isAlpha
  · rcases Bool.or_eq_true _ _ |>.mp (by simpa [Char.isAlpha] using hd)
      with hu | hlo
    · rw [if_pos hd]
      exact Or.inl (toLower_of_upper d hu)
    · rw [if_pos hd]
      have := char_isLower_bounds d hlo
      rw [toLower_of_lower d (by simp [lowerAlphaChar]; omega)]
      exact Or.inl (by simp [lowerAlphaChar]; omega)
  · rw [if_neg hd]
    exact Or.inr rfl

theorem pipelineToks_good (sw : List (List Char))
    (lem : List Char → List Char) (l : List Char)
    (hpres : ∀ w : List Char, w ≠ [] → (∀ c ∈ w, lowerAlphaChar c = true) →
      lem w ≠ [] ∧ ∀ c ∈ lem w, lowerAlphaChar c = true) :
    ∀ t ∈ pipelineToks sw lem l, t ≠ [] ∧ ∀ c ∈ t, lowerAlphaChar c = true := by
  intro t ht
  unfold pipelineToks at ht
  rcases List.mem_map.mp ht with ⟨u, hu, rfl⟩
  have humem := List.mem_of_mem_filter hu
  unfold words at humem
  obtain ⟨hune, huch⟩ := wordsF_token_chars _ _ u humem
  have hualpha : ∀ c ∈ u, lowerAlphaChar c = true := by
    intro c hc
    obtain ⟨hmem, hnsp⟩ := huch c hc
    rcases lowerAll_replaceNonAlpha_chars _ c hmem with ha | rfl
    · exact ha
    · exact absurd hnsp (by simp [pyIsSpace])
  exact hpres u hune hualpha

/-- C10.  For every string input and every lemmatizer that maps nonempty
lowercase-alphabetic words to nonempty lowercase-alphabetic words, the
normalization pipeline produces a string in which every whitespace-separated
token consists solely of lowercase ASCII letters, and whose tokens are joined
by single spaces (re-joining its whitespace-split words reproduces it
exactly). -/
theorem normalize_output_tokens (sw : List (List Char))
    (lem : List Char → List Char) (s : String)
    (hpres : ∀ w : List Char, w ≠ [] → (∀ c ∈ w, lowerAlphaChar c = true) →
      lem w ≠ [] ∧ ∀ c ∈ lem w, lowerAlphaChar c = true) :
    (∀ t ∈ words (NLP_preprocessing_pipeline sw lem s).toList,
      t ≠ [] ∧ ∀ c ∈ t, lowerAlphaChar c = true) ∧
    joinSp (words (NLP_preprocessing_pipeline sw lem s).toList) =
      (NLP_preprocessing_pipeline sw lem s).toList := by
  have hgood := pipelineToks_good sw lem s.toList hpres
  have hsplit : words (joinSp (pipelineToks sw lem s.toList)) =
      pipelineToks sw lem s.toList :=
    words_joinSp _ (fun w hw =>
      ⟨(hgood w hw).1,
        fun c hc => lowerAlpha_not_space c ((hgood w hw).2 c hc)⟩)
  have houtlist : (NLP_preprocessing_pipeline sw lem s).toList =
      joinSp (pipelineToks sw lem s.toList) := rfl
  constructor
  · intro t ht
    rw [houtlist, hsplit] at ht
    exact hgood t ht
  · rw [houtlist, hsplit]

/-- Witness for C10 with the identity lemmatizer on the input
"Hello, <b>World</b>!". -/
theorem normalize_output_tokens_witness :
    (∀ t ∈ words (NLP_preprocessing_pipeline [] (fun w => w)
        "Hello, <b>World</b>!").toList,
      t ≠ [] ∧ ∀ c ∈ t, lowerAlphaChar c = true) ∧
    joinSp (words (NLP_preprocessing_pipeline [] (fun w => w)
        "Hello, <b>World</b>!").toList) =
      (NLP_preprocessing_pipeline [] (fun w => w)
        "Hello, <b>World</b>!").toList :=
  normalize_output_tokens [] (fun w => w) "Hello, <b>World</b>!"
    (fun w h1 h2 => ⟨h1, h2⟩)

/-- C6 (amended).  The normalization pipeline is idempotent on every input
whose normalized output consists of nonempty lowercase-alphabetic tokens,
none of which is changed by the lemmatizer or is a stopword, and which
contains no "http" followed by a non-whitespace character (the second pass
would delete such a run as a URL).  Under these conditions a second
application of the pipeline returns its input unchanged. -/
theorem normalize_idempotent_on_stable_output (sw : List (List Char))
    (lem : List Char → List Char) (s : String)
    (hgood : ∀ t ∈ pipelineToks sw lem s.toList,
      t ≠ [] ∧ ∀ c ∈ t, lowerAlphaChar c = true)
    (hlem : ∀ t ∈ pipelineToks sw lem s.toList, lem t = t)
    (hsw : ∀ t ∈ pipelineToks sw lem s.toList, t ∉ sw)
    (hhttp : noHttpRun (joinSp (pipelineToks sw lem s.toList))) :
    NLP_preprocessing_pipeline sw lem (NLP_preprocessing_pipeline sw lem s) =
      NLP_preprocessing_pipeline sw lem s := by
  have hchars : ∀ c ∈ joinSp (pipelineToks sw lem s.toList),
      lowerAlphaChar c = true ∨ c = ' ' := by
    intro c hc
    rcases mem_joinSp _ c hc with ⟨w, hw, hcw⟩ | rfl
    · exact Or.inl ((hgood w hw).2 c hcw)
    · exact Or.inr rfl
  have houtlist : (NLP_preprocessing_pipeline sw lem s).toList =
      joinSp (pipelineToks sw lem s.toList) := rfl
  have hstage : pipelineToks sw lem (joinSp (pipelineToks sw lem s.toList)) =
      pipelineToks sw lem s.toList := by
    conv_lhs => rw [pipelineToks]
    rw [removeURLs_id _ hhttp]
    rw [stripTags_id _ (fun hlt => by
      rcases hchars '<' hlt with ha | ha
      · exact absurd ha (by decide)
      · exact absurd ha (by decide))]
    rw [replaceNonAlpha_id _ hchars, lowerAll_id _ hchars]
    rw [words_joinSp _ (fun w hw =>
      ⟨(hgood w hw).1,
        fun c hc => lowerAlpha_not_space c ((hgood w hw).2 c hc)⟩)]
    rw [List.filter_eq_self.mpr (fun t ht => by
      simp only [Bool.not_eq_true']
      simp only [List.contains, Bool.not_eq_true]
      rcases Bool.eq_false_or_eq_true (List.elem t sw) with hb | hb
      · exact absurd (List.elem_iff.mp hb) (hsw t ht)
      · exact hb)]
    rw [List.map_congr_left (g := id) (fun t ht => hlem t ht), List.map_id]
  show String.mk (joinSp (pipelineToks sw lem
      (NLP_preprocessing_pipeline sw lem s).toList)) = _
  rw [houtlist, hstage]
  rfl

/-- Counterexample for C6 as stated: on the input "htt<b>px" the first
normalization pass yields "httpx" (markup stripping splices the letters into
an http-run), and the second pass deletes that token as a URL, so
normalize(normalize(s)) differs from normalize(s).  The stopword list and
lemmatizer are instantiated so that they agree with the real NLTK resources
on every token involved. -/
theorem normalize_not_idempotent :
    NLP_preprocessing_pipeline [] (fun w => w)
        (NLP_preprocessing_pipeline [] (fun w => w) "htt<b>px") ≠
      NLP_preprocessing_pipeline [] (fun w => w) "htt<b>px" := by
  decide

/-- Witness for the amended C6 on the input "hello world". -/
theorem normalize_idempotent_witness :
    NLP_preprocessing_pipeline [] (fun w => w)
        (NLP_preprocessing_pipeline [] (fun w => w) "hello world") =
      NLP_preprocessing_pipeline [] (fun w => w) "hello world" :=
  normalize_idempotent_on_stable_output [] (fun w => w) "hello world"
    (by decide) (by decide) (by decide) (by decide)
